import Mathlib

/-!
Shallow embedding of the `TagWriter` component of `ebml-iterable`
(`src/tag_writer.rs`), together with the external vint encoder and a
conforming reader of the wire format, both modelled from the spec (their
source is not part of this core).

Bytes are modelled as `Nat` (values `< 256` wherever the code produces
them), buffers as `List Nat`, `u64` ids/values as `Nat`, `i64` values as
`Int`.  The sink is modelled as the list of `write_all` calls it received
plus a flush counter.  A Rust panic (`checked_sub(..).unwrap()` underflow
in `finalize_tag`, or the `usize` subtraction in `end_tag`) is modelled as
the distinguished status `panic`.
-/

/-- The `n`-byte big-endian representation of `v` (low `8*n` bits of `v`),
mirroring Rust's `to_be_bytes` on an `n`-byte integer. -/
def natToBeBytes : Nat → Nat → List Nat
  | 0, _ => []
  | n + 1, v => natToBeBytes n (v / 256) ++ [v % 256]

/-- Big-endian byte list to `Nat` (a conforming reader's uint decoding). -/
def beToNat (l : List Nat) : Nat := l.foldl (fun a b => a * 256 + b) 0

/-- The `n`-byte big-endian two's-complement representation of an integer,
mirroring Rust's `to_be_bytes` on an `n`-byte signed integer. -/
def intToBeBytes (n : Nat) (v : Int) : List Nat :=
  natToBeBytes n (Int.toNat (v % ((2 : Int) ^ (8 * n))))

/-- Big-endian two's-complement byte list to `Int` (a conforming reader's
signed-int decoding). -/
def beToInt (l : List Nat) : Int :=
  match l with
  | [] => 0
  | b :: _ => if 128 ≤ b then (beToNat l : Int) - (2 : Int) ^ (8 * l.length) else (beToNat l : Int)

/-- Modelled from the spec: the external vint size encoder (`tools::Vint`,
`as_vint`, not part of this core's source).  Per §6, the encoded byte count
is indicated by the position of the first set bit in the first octet, up to
8 octets, and encoding fails if the integer exceeds the maximum
representable magnitude; per §8, `vint 0 = [0x80]`.  The minimal octet
count `n` with `v < 2^(7*n)` is used, and the marker bit is the bit just
above the `7*n` value bits of the first octet. -/
def asVint (v : Nat) : Option (List Nat) :=
  if v < 2 ^ 7 then some (natToBeBytes 1 (2 ^ 7 + v))
  else if v < 2 ^ 14 then some (natToBeBytes 2 (2 ^ 14 + v))
  else if v < 2 ^ 21 then some (natToBeBytes 3 (2 ^ 21 + v))
  else if v < 2 ^ 28 then some (natToBeBytes 4 (2 ^ 28 + v))
  else if v < 2 ^ 35 then some (natToBeBytes 5 (2 ^ 35 + v))
  else if v < 2 ^ 42 then some (natToBeBytes 6 (2 ^ 42 + v))
  else if v < 2 ^ 49 then some (natToBeBytes 7 (2 ^ 49 + v))
  else if v < 2 ^ 56 then some (natToBeBytes 8 (2 ^ 56 + v))
  else none

/-- The id bytes emitted by `finalize_tag`:
`id.to_be_bytes().iter().skip_while(|&v| *v == 0u8)`. -/
def strippedId (id : Nat) : List Nat :=
  (natToBeBytes 8 id).dropWhile (fun b => b == 0)

/-- Type `TagData` from `tags.rs` (external data type).  `Utf8` carries the
UTF-8 byte sequence (`val.as_bytes()`), `Float` carries the 64 IEEE-754
bits of the `f64` (its `to_be_bytes` image is the 8-byte big-endian form
of these bits). -/
inductive TagData where
  | Master : List (Nat × TagData) → TagData
  | UnsignedInt : Nat → TagData
  | Integer : Int → TagData
  | Utf8 : List Nat → TagData
  | Binary : List Nat → TagData
  | Float : Nat → TagData
deriving Repr

/-- Type `TagPosition` from `tags.rs` (external data type). -/
inductive TagPosition where
  | StartTag : Nat → TagPosition
  | EndTag : Nat → TagPosition
  | FullTag : Nat → TagData → TagPosition
deriving Repr

/-- Outcome of one `write` call.  `errClose` is
`TagWriterError::UnexpectedClosingTag`, `errSize` is
`TagWriterError::TagSizeError`; `panic` marks the arithmetic `unwrap`
panics (the sink is modelled as infallible, so `WriteError` never
arises). -/
inductive WStatus where
  | ok
  | errClose (tagId : Nat) (expectedId : Option Nat)
  | errSize
  | panic
deriving Repr, DecidableEq

/-- The `TagWriter` state: open-tag stack (head = top, entries are
`(id, start offset)`), the working buffer, and the sink observed as the
list of contiguous `write_all` payloads plus the number of flushes. -/
structure TagWriter where
  openTags : List (Nat × Nat)
  workingBuffer : List Nat
  sinkWrites : List (List Nat)
  sinkFlushes : Nat
deriving Repr, DecidableEq

/-- Constructor `TagWriter::new`. -/
def newWriter : TagWriter := ⟨[], [], [], 0⟩

/-- Method `start_tag`: push `(id, working_buffer.len())`. -/
def startTag (w : TagWriter) (id : Nat) : TagWriter :=
  { w with openTags := (id, w.workingBuffer.length) :: w.openTags }

/-- Method `finalize_tag(id, size)`: encode `size` as a vint, splice
`stripped-id-bytes ++ size-vint` at `working_buffer.len() - size`, and if
no tag is open, write the whole buffer to the sink, flush, and clear. -/
def finalizeTag (w : TagWriter) (id : Nat) (size : Nat) : TagWriter × WStatus :=
  match asVint size with
  | none => (w, .errSize)
  | some sizeVint =>
    if size ≤ w.workingBuffer.length then
      let index := w.workingBuffer.length - size
      let buf := w.workingBuffer.take index ++ (strippedId id ++ sizeVint) ++
        w.workingBuffer.drop index
      if w.openTags.isEmpty then
        ({ w with workingBuffer := [],
                  sinkWrites := w.sinkWrites ++ [buf],
                  sinkFlushes := w.sinkFlushes + 1 }, .ok)
      else
        ({ w with workingBuffer := buf }, .ok)
    else (w, .panic)

/-- Method `end_tag`: pop; error (with the popped entry discarded) on empty stack
or id mismatch; otherwise finalize with `working_buffer.len() - offset`. -/
def endTag (w : TagWriter) (id : Nat) : TagWriter × WStatus :=
  match w.openTags with
  | [] => (w, .errClose id none)
  | (tid, off) :: rest =>
    let w1 := { w with openTags := rest }
    if tid = id then
      if off ≤ w1.workingBuffer.length then
        finalizeTag w1 tid (w1.workingBuffer.length - off)
      else (w1, .panic)
    else (w1, .errClose id (some tid))

/-- Scalar bytes and recorded size for `TagData::UnsignedInt(val)`:
the `u8`/`u16`/`u32` `try_from` chain with `u64` fallback. -/
def uintBytes (v : Nat) : List Nat × Nat :=
  if v < 256 then (natToBeBytes 1 v, 1)
  else if v < 65536 then (natToBeBytes 2 v, 2)
  else if v < 4294967296 then (natToBeBytes 4 v, 4)
  else (natToBeBytes 8 v, 8)

/-- Scalar bytes and recorded size for `TagData::Integer(val)`:
the `i8`/`i16`/`i32` `try_from` chain with `i64` fallback. -/
def intBytes (v : Int) : List Nat × Nat :=
  if -128 ≤ v ∧ v < 128 then (intToBeBytes 1 v, 1)
  else if -32768 ≤ v ∧ v < 32768 then (intToBeBytes 2 v, 2)
  else if -2147483648 ≤ v ∧ v < 2147483648 then (intToBeBytes 4 v, 4)
  else (intToBeBytes 8 v, 8)

mutual

/-- Method `TagWriter::write`: dispatch on the event kind. -/
def writeTag (w : TagWriter) : TagPosition → TagWriter × WStatus
  | .StartTag id => (startTag w id, .ok)
  | .EndTag id => endTag w id
  | .FullTag id data => writeFullTag w id data

/-- Method `write_full_tag(id, data)`.  For `Master`, re-dispatches as
`StartTag`, the children as `FullTag`s, then `EndTag` (the dispatcher
sends those straight to `start_tag` / `write_full_tag` / `end_tag`);
for scalars, appends the payload bytes and finalizes. -/
def writeFullTag (w : TagWriter) (id : Nat) : TagData → TagWriter × WStatus
  | .Master children =>
    let w1 := startTag w id
    match writeChildren w1 children with
    | (w2, .ok) => endTag w2 id
    | (w2, s) => (w2, s)
  | .UnsignedInt v =>
    finalizeTag { w with workingBuffer := w.workingBuffer ++ (uintBytes v).1 } id (uintBytes v).2
  | .Integer v =>
    finalizeTag { w with workingBuffer := w.workingBuffer ++ (intBytes v).1 } id (intBytes v).2
  | .Utf8 bs =>
    finalizeTag { w with workingBuffer := w.workingBuffer ++ bs } id bs.length
  | .Binary bs =>
    finalizeTag { w with workingBuffer := w.workingBuffer ++ bs } id bs.length
  | .Float bits =>
    finalizeTag { w with workingBuffer := w.workingBuffer ++ natToBeBytes 8 bits } id 8

/-- The child loop of `write_full_tag` on `Master`: each child is written
as a `FullTag`, stopping at the first non-`ok` outcome. -/
def writeChildren (w : TagWriter) : List (Nat × TagData) → TagWriter × WStatus
  | [] => (w, .ok)
  | (cid, cdata) :: rest =>
    match writeFullTag w cid cdata with
    | (w1, .ok) => writeChildren w1 rest
    | (w1, s) => (w1, s)

end

/-- Run a sequence of `write` calls, threading the writer state and
collecting each call's status. -/
def runWrites (w : TagWriter) : List TagPosition → TagWriter × List WStatus
  | [] => (w, [])
  | e :: rest =>
    let r := writeTag w e
    let r2 := runWrites r.1 rest
    (r2.1, r.2 :: r2.2)

/-- Modelled from the spec: the self-describing length scheme shared by
tag ids and vints (§4.3 step 3, §6) — the byte count is the number of
leading zero bits of the first octet plus one; a zero first octet is not
a valid start. -/
def idLenOfFirstByte (b : Nat) : Option Nat :=
  if 128 ≤ b then some 1
  else if 64 ≤ b then some 2
  else if 32 ≤ b then some 3
  else if 16 ≤ b then some 4
  else if 8 ≤ b then some 5
  else if 4 ≤ b then some 6
  else if 2 ≤ b then some 7
  else if 1 ≤ b then some 8
  else none

/-- Take exactly `n` bytes from the front of a stream, failing if fewer
are available. -/
def readBytes (n : Nat) (l : List Nat) : Option (List Nat × List Nat) :=
  if n ≤ l.length then some (l.take n, l.drop n) else none

/-- Modelled from the spec: a conforming reader's tag-id parse — the
leading bits of the first octet give the byte count, and the id value is
the big-endian value of those bytes (marker bits included, as in
`0x1A45DFA3`). -/
def readId (l : List Nat) : Option (Nat × List Nat) :=
  match l with
  | [] => none
  | b :: _ =>
    (idLenOfFirstByte b).bind fun n =>
      (readBytes n l).map fun p => (beToNat p.1, p.2)

/-- Modelled from the spec: a conforming reader's size-vint parse (§6) —
the leading bits of the first octet give the byte count `n`, and the value
is the big-endian value of those bytes with the marker bit cleared (the
low `7*n` bits). -/
def readVint (l : List Nat) : Option (Nat × List Nat) :=
  match l with
  | [] => none
  | b :: _ =>
    (idLenOfFirstByte b).bind fun n =>
      (readBytes n l).map fun p => (beToNat p.1 % 2 ^ (7 * n), p.2)

mutual

/-- Modelled from the spec: one tag parsed by a conforming, schema-driven
reader of the wire format `id-bytes || size-vint || payload` (§6), the
schema being supplied as the expected payload shape.  Returns the id, the
decoded payload, and the unconsumed rest of the stream. -/
def decodeTagAs (shape : TagData) (l : List Nat) : Option (Nat × TagData × List Nat) :=
  (readId l).bind fun p =>
    (readVint p.2).bind fun q =>
      (readBytes q.1 q.2).bind fun r =>
        (decodePayloadAs shape r.1).map fun d => (p.1, d, r.2)

/-- Modelled from the spec: payload decoding per §4.2's scalar encodings —
big-endian unsigned, big-endian two's complement, verbatim text/bytes,
8-byte float, or a container's children in order, consuming the payload
exactly. -/
def decodePayloadAs : TagData → List Nat → Option TagData
  | .Master shapes, payload => (decodeChildrenAs shapes payload).map TagData.Master
  | .UnsignedInt _, payload => some (.UnsignedInt (beToNat payload))
  | .Integer _, payload => some (.Integer (beToInt payload))
  | .Utf8 _, payload => some (.Utf8 payload)
  | .Binary _, payload => some (.Binary payload)
  | .Float _, payload =>
    if payload.length = 8 then some (.Float (beToNat payload)) else none

/-- Modelled from the spec: a container's children parsed in order, the
container's payload being exactly their concatenated encodings. -/
def decodeChildrenAs : List (Nat × TagData) → List Nat → Option (List (Nat × TagData))
  | [], payload => if payload.isEmpty then some [] else none
  | (_, cshape) :: rest, payload =>
    (decodeTagAs cshape payload).bind fun p =>
      (decodeChildrenAs rest p.2.2).map fun cs => (p.1, p.2.1) :: cs

end

mutual

/-- The payload bytes `write_full_tag` appends for a given `TagData`
(children's full encodings concatenated, for a container). -/
def payloadBytes : TagData → Option (List Nat)
  | .Master children => childrenBytes children
  | .UnsignedInt v => some (uintBytes v).1
  | .Integer v => some (intBytes v).1
  | .Utf8 bs => some bs
  | .Binary bs => some bs
  | .Float bits => some (natToBeBytes 8 bits)

/-- Concatenation of the full encodings of a list of child tags. -/
def childrenBytes : List (Nat × TagData) → Option (List Nat)
  | [] => some []
  | (cid, cdata) :: rest =>
    (encodeTag cid cdata).bind fun e => (childrenBytes rest).map fun es => e ++ es

/-- The full wire encoding of one tag, `id-bytes || size-vint || payload`,
as produced by the writer (`none` when the vint encoder rejects the
size). -/
def encodeTag (id : Nat) (data : TagData) : Option (List Nat) :=
  (payloadBytes data).bind fun p =>
    (asVint p.length).map fun sv => strippedId id ++ sv ++ p

end

/-- A valid self-describing EBML element id: a `u64` whose big-endian
bytes with leading zero bytes stripped start with an octet whose leading
bits announce exactly their count (such as `0x1A45DFA3`). -/
def validTagId (id : Nat) : Bool :=
  decide (id < 2 ^ 64) &&
    match strippedId id with
    | [] => false
    | b :: t => idLenOfFirstByte b == some (t.length + 1)

mutual

/-- All ids appearing inside a payload (children of containers,
recursively) are valid EBML ids. -/
def validIds : TagData → Bool
  | .Master children => validChildIds children
  | _ => true

/-- All ids of a child list are valid, recursively. -/
def validChildIds : List (Nat × TagData) → Bool
  | [] => true
  | (cid, cdata) :: rest => validTagId cid && validIds cdata && validChildIds rest

end

mutual

/-- The payload's scalar values fit the Rust types they model
(`u64`, `i64`, 64 float bits). -/
def wfData : TagData → Bool
  | .Master children => wfChildren children
  | .UnsignedInt v => decide (v < 2 ^ 64)
  | .Integer v => decide (-(2 : Int) ^ 63 ≤ v ∧ v < (2 : Int) ^ 63)
  | .Utf8 _ => true
  | .Binary _ => true
  | .Float bits => decide (bits < 2 ^ 64)

/-- All children of a list are well formed. -/
def wfChildren : List (Nat × TagData) → Bool
  | [] => true
  | (_, cdata) :: rest => wfData cdata && wfChildren rest

end

/-- Every recorded start offset is within the current buffer. -/
def StackInv (w : TagWriter) : Prop :=
  ∀ pr ∈ w.openTags, pr.2 ≤ w.workingBuffer.length

/-- Which events can complete a tag: `EndTag` and `FullTag` finalize
tags, `StartTag` never does. -/
def closesTag : TagPosition → Bool
  | .StartTag _ => false
  | _ => true

/-- Stated from the claim's words (C4), for comparison with `uintBytes`:
the narrowest width among 1, 2, 4, 8 bytes, tested in that order, whose
unsigned range contains `v`. -/
def specNarrowestUnsignedWidth (v : Nat) : Option Nat :=
  [1, 2, 4, 8].find? fun w => v < 2 ^ (8 * w)

/-- Stated from the claim's words (C4), for comparison with `intBytes`:
the narrowest width among 1, 2, 4, 8 bytes, tested in that order, whose
two's-complement signed range contains `v`. -/
def specNarrowestSignedWidth (v : Int) : Option Nat :=
  [1, 2, 4, 8].find? fun w =>
    decide (-((2 : Int) ^ (8 * w - 1)) ≤ v ∧ v < (2 : Int) ^ (8 * w - 1))

/-! ### Byte-level lemmas -/

theorem natToBeBytes_length (n v : Nat) : (natToBeBytes n v).length = n := by
  induction n generalizing v with
  | zero => simp [natToBeBytes]
  | succ n ih => simp [natToBeBytes, ih]

theorem beToNat_append_single (l : List Nat) (b : Nat) :
    beToNat (l ++ [b]) = beToNat l * 256 + b := by
  simp [beToNat, List.foldl_append]

theorem mod_pow_peel (v n : Nat) :
    (v / 256 % 256 ^ n) * 256 + v % 256 = v % 256 ^ (n + 1) := by
  rw [pow_succ', Nat.mod_mul]
  ring

theorem beToNat_natToBeBytes (n v : Nat) : beToNat (natToBeBytes n v) = v % 256 ^ n := by
  induction n generalizing v with
  | zero => simp [natToBeBytes, beToNat, Nat.mod_one]
  | succ n ih => rw [natToBeBytes, beToNat_append_single, ih, mod_pow_peel]

theorem beToNat_cons_zero (l : List Nat) : beToNat (0 :: l) = beToNat l := by
  simp [beToNat]

theorem beToNat_dropWhile_zero (l : List Nat) :
    beToNat (l.dropWhile (fun b => b == 0)) = beToNat l := by
  induction l with
  | nil => rfl
  | cons b t ih =>
    by_cases hb : b = 0
    · subst hb
      simpa [List.dropWhile_cons, beToNat_cons_zero] using ih
    · simp [List.dropWhile_cons, hb]

theorem length_dropWhile_le (p : Nat → Bool) (l : List Nat) :
    (l.dropWhile p).length ≤ l.length := by
  induction l with
  | nil => simp
  | cons b t ih =>
    rw [List.dropWhile_cons]
    split
    · exact le_trans ih (Nat.le_succ _)
    · simp

theorem strippedId_length_le (id : Nat) : (strippedId id).length ≤ 8 := by
  have h := length_dropWhile_le (fun b => b == 0) (natToBeBytes 8 id)
  simpa [strippedId, natToBeBytes_length] using h

theorem beToNat_strippedId (id : Nat) (h : id < 2 ^ 64) : beToNat (strippedId id) = id := by
  rw [strippedId, beToNat_dropWhile_zero, beToNat_natToBeBytes]
  have : (256 : Nat) ^ 8 = 2 ^ 64 := by norm_num
  rw [this]
  exact Nat.mod_eq_of_lt h

theorem asVint_small (n : Nat) (h : n < 128) : asVint n = some [128 + n] := by
  unfold asVint
  rw [if_pos (by omega)]
  simp [natToBeBytes]
  omega

theorem natToBeBytes_succ (n v : Nat) :
    natToBeBytes (n + 1) v = v / 256 ^ n % 256 :: natToBeBytes n v := by
  induction n generalizing v with
  | zero => simp [natToBeBytes]
  | succ n ih =>
    have h : (256 : Nat) * 256 ^ n = 256 ^ (n + 1) := by rw [pow_succ]; ring
    calc natToBeBytes (n + 2) v = natToBeBytes (n + 1) (v / 256) ++ [v % 256] := rfl
      _ = (v / 256 / 256 ^ n % 256 :: natToBeBytes n (v / 256)) ++ [v % 256] := by rw [ih]
      _ = v / 256 ^ (n + 1) % 256 :: (natToBeBytes n (v / 256) ++ [v % 256]) := by
          rw [Nat.div_div_eq_div_mul, h]; rfl
      _ = v / 256 ^ (n + 1) % 256 :: natToBeBytes (n + 1) v := rfl

theorem readBytes_exact (l r : List Nat) (n : Nat) (h : l.length = n) :
    readBytes n (l ++ r) = some (l, r) := by
  subst h
  rw [readBytes, if_pos (by simp)]
  rw [List.take_left, List.drop_left]

theorem readId_strippedId (id : Nat) (h : validTagId id = true) (r : List Nat) :
    readId (strippedId id ++ r) = some (id, r) := by
  unfold validTagId at h
  rcases hS : strippedId id with _ | ⟨b, t⟩
  · rw [hS] at h; simp at h
  · rw [hS] at h
    simp only [Bool.and_eq_true, decide_eq_true_eq, beq_iff_eq] at h
    obtain ⟨h64, hlen⟩ := h
    rw [List.cons_append]
    simp only [readId]
    rw [hlen]
    simp only [Option.some_bind]
    rw [← List.cons_append, readBytes_exact _ _ _ (by simp)]
    simp only [Option.map_some']
    rw [show (beToNat (b :: t)) = id by rw [← hS, beToNat_strippedId id h64]]

theorem idLen_of_bounds (b k : Nat) (hk1 : 1 ≤ k) (hk8 : k ≤ 8)
    (hlo : 2 ^ (8 - k) ≤ b) (hhi : b < 2 ^ (9 - k)) :
    idLenOfFirstByte b = some k := by
  interval_cases k <;>
    (unfold idLenOfFirstByte
     norm_num at hlo hhi
     split_ifs <;> first | rfl | (exfalso; omega))

theorem pow256_eq (j : Nat) : (256 : Nat) ^ j = 2 ^ (8 * j) := by
  rw [show (256 : Nat) = 2 ^ 8 from rfl, ← pow_mul]

theorem readVint_marker (j v : Nat) (r : List Nat) (hj : j ≤ 7)
    (hv : v < 2 ^ (7 * j + 7)) :
    readVint (natToBeBytes (j + 1) (2 ^ (7 * j + 7) + v) ++ r) = some (v, r) := by
  set m := 2 ^ (7 * j + 7) + v with hm
  have hmlt : m < 2 ^ (7 * j + 8) := by
    have : (2 : Nat) ^ (7 * j + 8) = 2 ^ (7 * j + 7) + 2 ^ (7 * j + 7) := by ring
    omega
  have hple : (2 : Nat) ^ (7 * j + 8) ≤ 2 ^ (8 * j + 8) :=
    Nat.pow_le_pow_right (by norm_num) (by omega)
  have hpos : 0 < 256 ^ j := Nat.pos_pow_of_pos j (by norm_num)
  have hm256 : m < 256 ^ (j + 1) := by
    rw [pow256_eq]
    calc m < 2 ^ (7 * j + 8) := hmlt
      _ ≤ 2 ^ (8 * j + 8) := hple
      _ = 2 ^ (8 * (j + 1)) := by ring_nf
  have hb0lt : m / 256 ^ j < 256 := by
    rw [Nat.div_lt_iff_lt_mul hpos]
    have h256 : (256 : Nat) ^ (j + 1) = 256 * 256 ^ j := by rw [pow_succ]; ring
    omega
  have hlo : 2 ^ (8 - (j + 1)) ≤ m / 256 ^ j := by
    rw [Nat.le_div_iff_mul_le hpos]
    have : (2 : Nat) ^ (8 - (j + 1)) * 256 ^ j = 2 ^ (7 * j + 7) := by
      rw [pow256_eq, ← pow_add]
      congr 1
      omega
    rw [this]
    omega
  have hhi : m / 256 ^ j < 2 ^ (9 - (j + 1)) := by
    rw [Nat.div_lt_iff_lt_mul hpos]
    have : (2 : Nat) ^ (9 - (j + 1)) * 256 ^ j = 2 ^ (7 * j + 8) := by
      rw [pow256_eq, ← pow_add]
      congr 1
      omega
    rw [this]
    exact hmlt
  have hb0mod : m / 256 ^ j % 256 = m / 256 ^ j := Nat.mod_eq_of_lt hb0lt
  have hidlen : idLenOfFirstByte (m / 256 ^ j % 256) = some (j + 1) := by
    rw [hb0mod]
    exact idLen_of_bounds _ _ (by omega) (by omega) hlo hhi
  rw [natToBeBytes_succ, List.cons_append]
  simp only [readVint]
  rw [hidlen]
  simp only [Option.some_bind]
  rw [← List.cons_append, ← natToBeBytes_succ,
      readBytes_exact _ _ _ (natToBeBytes_length _ _)]
  simp only [Option.map_some']
  rw [beToNat_natToBeBytes, Nat.mod_eq_of_lt hm256]
  rw [show 7 * (j + 1) = 7 * j + 7 by ring, hm, Nat.add_mod_left, Nat.mod_eq_of_lt hv]

theorem readVint_asVint (v : Nat) (sv r : List Nat) (h : asVint v = some sv) :
    readVint (sv ++ r) = some (v, r) := by
  unfold asVint at h
  split_ifs at h with h1 h2 h3 h4 h5 h6 h7 h8 <;>
    first
    | exact Option.noConfusion h
    | (injection h with h
       subst h
       first
       | exact readVint_marker 0 v r (by omega) (by omega)
       | exact readVint_marker 1 v r (by omega) (by omega)
       | exact readVint_marker 2 v r (by omega) (by omega)
       | exact readVint_marker 3 v r (by omega) (by omega)
       | exact readVint_marker 4 v r (by omega) (by omega)
       | exact readVint_marker 5 v r (by omega) (by omega)
       | exact readVint_marker 6 v r (by omega) (by omega)
       | exact readVint_marker 7 v r (by omega) (by omega))

/-! ### Writer-level helper lemmas -/

theorem uintBytes_length (v : Nat) : (uintBytes v).1.length = (uintBytes v).2 := by
  unfold uintBytes
  split_ifs <;> simp [natToBeBytes_length]

theorem intBytes_length (v : Int) : (intBytes v).1.length = (intBytes v).2 := by
  unfold intBytes
  split_ifs <;> simp [intToBeBytes, natToBeBytes_length]

theorem finalizeTag_errSize (w : TagWriter) (id size : Nat) (h : asVint size = none) :
    finalizeTag w id size = (w, .errSize) := by
  simp only [finalizeTag, h]

theorem finalizeTag_append_nonempty (w : TagWriter) (id : Nat) (p q sv : List Nat)
    (hbuf : w.workingBuffer = p ++ q) (hsv : asVint q.length = some sv)
    (hne : w.openTags ≠ []) :
    finalizeTag w id q.length =
      ({ w with workingBuffer := p ++ (strippedId id ++ sv) ++ q }, .ok) := by
  have hemp : w.openTags.isEmpty = false := by
    cases hot : w.openTags
    · exact absurd hot hne
    · rfl
  simp only [finalizeTag, hsv, hemp, hbuf]
  rw [if_pos (by simp)]
  have hidx : (p ++ q).length - q.length = p.length := by simp
  rw [hidx, List.take_left, List.drop_left]
  simp

theorem finalizeTag_append_empty (w : TagWriter) (id : Nat) (p q sv : List Nat)
    (hbuf : w.workingBuffer = p ++ q) (hsv : asVint q.length = some sv)
    (hemp : w.openTags = []) :
    finalizeTag w id q.length =
      ({ w with workingBuffer := [],
                sinkWrites := w.sinkWrites ++ [p ++ (strippedId id ++ sv) ++ q],
                sinkFlushes := w.sinkFlushes + 1 }, .ok) := by
  simp only [finalizeTag, hsv, hemp, hbuf]
  rw [if_pos (by simp)]
  have hidx : (p ++ q).length - q.length = p.length := by simp
  rw [hidx, List.take_left, List.drop_left]
  simp

theorem endTag_empty (w : TagWriter) (id : Nat) (h : w.openTags = []) :
    endTag w id = (w, .errClose id none) := by
  simp only [endTag, h]

theorem endTag_mismatch (w : TagWriter) (id tid off : Nat) (rest : List (Nat × Nat))
    (hot : w.openTags = (tid, off) :: rest) (hne : tid ≠ id) :
    endTag w id = ({ w with openTags := rest }, .errClose id (some tid)) := by
  simp only [endTag, hot]
  rw [if_neg hne]

theorem endTag_match (w : TagWriter) (id off : Nat) (rest : List (Nat × Nat))
    (hot : w.openTags = (id, off) :: rest) (hle : off ≤ w.workingBuffer.length) :
    endTag w id =
      finalizeTag { w with openTags := rest } id (w.workingBuffer.length - off) := by
  simp only [endTag, hot]
  simp [hle]

mutual

theorem writeFullTag_ok_append (w : TagWriter) (id : Nat) (data : TagData)
    (hne : w.openTags ≠ []) (w' : TagWriter)
    (h : writeFullTag w id data = (w', .ok)) :
    ∃ enc, encodeTag id data = some enc ∧
      w' = { w with workingBuffer := w.workingBuffer ++ enc } := by
  cases data with
  | Master children =>
    rcases hwc : writeChildren (startTag w id) children with ⟨w2, s2⟩
    simp only [writeFullTag] at h
    rw [hwc] at h
    cases s2 with
    | ok =>
      replace h : endTag w2 id = (w', .ok) := h
      obtain ⟨encC, hcb, hw2⟩ :=
        writeChildren_ok_append (startTag w id) children (by simp [startTag]) w2 hwc
      subst hw2
      rw [endTag_match _ id w.workingBuffer.length w.openTags
        (by simp [startTag]) (by simp [startTag])] at h
      have hsz : ({ startTag w id with
          workingBuffer := (startTag w id).workingBuffer ++ encC } :
          TagWriter).workingBuffer.length - w.workingBuffer.length = encC.length := by
        simp [startTag]
      rw [hsz] at h
      rcases hsv : asVint encC.length with _ | sv
      · rw [finalizeTag_errSize _ _ _ hsv] at h
        exact absurd (congrArg Prod.snd h) (by simp)
      · rw [finalizeTag_append_nonempty _ id w.workingBuffer encC sv
          (by simp [startTag]) hsv (by simpa [startTag] using hne)] at h
        refine ⟨strippedId id ++ sv ++ encC, ?_, ?_⟩
        · simp [encodeTag, payloadBytes, hcb, hsv, List.append_assoc]
        · have hfst := congrArg Prod.fst h
          simp only at hfst
          rw [← hfst]
          simp [startTag, List.append_assoc]
    | errClose a b =>
      replace h : ((w2, WStatus.errClose a b) : TagWriter × WStatus) = (w', .ok) := h
      exact absurd (congrArg Prod.snd h) (by simp)
    | errSize =>
      replace h : ((w2, WStatus.errSize) : TagWriter × WStatus) = (w', .ok) := h
      exact absurd (congrArg Prod.snd h) (by simp)
    | panic =>
      replace h : ((w2, WStatus.panic) : TagWriter × WStatus) = (w', .ok) := h
      exact absurd (congrArg Prod.snd h) (by simp)
  | UnsignedInt v =>
    simp only [writeFullTag] at h
    rcases hsv : asVint ((uintBytes v).2) with _ | sv
    · rw [finalizeTag_errSize _ _ _ hsv] at h
      exact absurd (congrArg Prod.snd h) (by simp)
    · have hq : (uintBytes v).1.length = (uintBytes v).2 := uintBytes_length v
      have hfin := finalizeTag_append_nonempty
        { w with workingBuffer := w.workingBuffer ++ (uintBytes v).1 } id
        w.workingBuffer (uintBytes v).1 sv rfl (by rw [hq]; exact hsv) hne
      rw [hq] at hfin
      rw [hfin] at h
      refine ⟨strippedId id ++ sv ++ (uintBytes v).1, ?_, ?_⟩
      · simp [encodeTag, payloadBytes, hq, hsv, List.append_assoc]
      · have hfst := congrArg Prod.fst h
        simp only at hfst
        rw [← hfst]
        simp [List.append_assoc]
  | Integer v =>
    simp only [writeFullTag] at h
    rcases hsv : asVint ((intBytes v).2) with _ | sv
    · rw [finalizeTag_errSize _ _ _ hsv] at h
      exact absurd (congrArg Prod.snd h) (by simp)
    · have hq : (intBytes v).1.length = (intBytes v).2 := intBytes_length v
      have hfin := finalizeTag_append_nonempty
        { w with workingBuffer := w.workingBuffer ++ (intBytes v).1 } id
        w.workingBuffer (intBytes v).1 sv rfl (by rw [hq]; exact hsv) hne
      rw [hq] at hfin
      rw [hfin] at h
      refine ⟨strippedId id ++ sv ++ (intBytes v).1, ?_, ?_⟩
      · simp [encodeTag, payloadBytes, hq, hsv, List.append_assoc]
      · have hfst := congrArg Prod.fst h
        simp only at hfst
        rw [← hfst]
        simp [List.append_assoc]
  | Utf8 bs =>
    simp only [writeFullTag] at h
    rcases hsv : asVint bs.length with _ | sv
    · rw [finalizeTag_errSize _ _ _ hsv] at h
      exact absurd (congrArg Prod.snd h) (by simp)
    · rw [finalizeTag_append_nonempty
        { w with workingBuffer := w.workingBuffer ++ bs } id
        w.workingBuffer bs sv rfl hsv hne] at h
      refine ⟨strippedId id ++ sv ++ bs, ?_, ?_⟩
      · simp [encodeTag, payloadBytes, hsv, List.append_assoc]
      · have hfst := congrArg Prod.fst h
        simp only at hfst
        rw [← hfst]
        simp [List.append_assoc]
  | Binary bs =>
    simp only [writeFullTag] at h
    rcases hsv : asVint bs.length with _ | sv
    · rw [finalizeTag_errSize _ _ _ hsv] at h
      exact absurd (congrArg Prod.snd h) (by simp)
    · rw [finalizeTag_append_nonempty
        { w with workingBuffer := w.workingBuffer ++ bs } id
        w.workingBuffer bs sv rfl hsv hne] at h
      refine ⟨strippedId id ++ sv ++ bs, ?_, ?_⟩
      · simp [encodeTag, payloadBytes, hsv, List.append_assoc]
      · have hfst := congrArg Prod.fst h
        simp only at hfst
        rw [← hfst]
        simp [List.append_assoc]
  | Float bits =>
    simp only [writeFullTag] at h
    rcases hsv : asVint (8 : Nat) with _ | sv
    · rw [finalizeTag_errSize _ _ _ hsv] at h
      exact absurd (congrArg Prod.snd h) (by simp)
    · have hq : (natToBeBytes 8 bits).length = 8 := natToBeBytes_length 8 bits
      have hfin := finalizeTag_append_nonempty
        { w with workingBuffer := w.workingBuffer ++ natToBeBytes 8 bits } id
        w.workingBuffer (natToBeBytes 8 bits) sv rfl (by rw [hq]; exact hsv) hne
      rw [hq] at hfin
      rw [hfin] at h
      refine ⟨strippedId id ++ sv ++ natToBeBytes 8 bits, ?_, ?_⟩
      · simp [encodeTag, payloadBytes, hq, hsv, List.append_assoc]
      · have hfst := congrArg Prod.fst h
        simp only at hfst
        rw [← hfst]
        simp [List.append_assoc]

theorem writeChildren_ok_append (w : TagWriter) (cs : List (Nat × TagData))
    (hne : w.openTags ≠ []) (w' : TagWriter)
    (h : writeChildren w cs = (w', .ok)) :
    ∃ enc, childrenBytes cs = some enc ∧
      w' = { w with workingBuffer := w.workingBuffer ++ enc } := by
  cases cs with
  | nil =>
    simp only [writeChildren] at h
    refine ⟨[], by simp [childrenBytes], ?_⟩
    have hfst := congrArg Prod.fst h
    simp only at hfst
    simp [← hfst]
  | cons c rest =>
    rcases c with ⟨cid, cdata⟩
    simp only [writeChildren] at h
    rcases hwf : writeFullTag w cid cdata with ⟨w1, s1⟩
    rw [hwf] at h
    cases s1 with
    | ok =>
      replace h : writeChildren w1 rest = (w', .ok) := h
      obtain ⟨e1, he1, hw1⟩ := writeFullTag_ok_append w cid cdata hne w1 hwf
      subst hw1
      obtain ⟨erest, herest, hw'⟩ :=
        writeChildren_ok_append _ rest (by simpa using hne) w' h
      refine ⟨e1 ++ erest, ?_, ?_⟩
      · simp [childrenBytes, he1, herest]
      · rw [hw']
        simp [List.append_assoc]
    | errClose a b =>
      replace h : ((w1, WStatus.errClose a b) : TagWriter × WStatus) = (w', .ok) := h
      exact absurd (congrArg Prod.snd h) (by simp)
    | errSize =>
      replace h : ((w1, WStatus.errSize) : TagWriter × WStatus) = (w', .ok) := h
      exact absurd (congrArg Prod.snd h) (by simp)
    | panic =>
      replace h : ((w1, WStatus.panic) : TagWriter × WStatus) = (w', .ok) := h
      exact absurd (congrArg Prod.snd h) (by simp)

end

theorem writeFullTag_ok_flush (w : TagWriter) (id : Nat) (data : TagData)
    (hemp : w.openTags = []) (w' : TagWriter)
    (h : writeFullTag w id data = (w', .ok)) :
    ∃ enc, encodeTag id data = some enc ∧
      w' = { w with workingBuffer := [],
                    sinkWrites := w.sinkWrites ++ [w.workingBuffer ++ enc],
                    sinkFlushes := w.sinkFlushes + 1 } := by
  cases data with
  | Master children =>
    rcases hwc : writeChildren (startTag w id) children with ⟨w2, s2⟩
    simp only [writeFullTag] at h
    rw [hwc] at h
    cases s2 with
    | ok =>
      replace h : endTag w2 id = (w', .ok) := h
      obtain ⟨encC, hcb, hw2⟩ :=
        writeChildren_ok_append (startTag w id) children (by simp [startTag]) w2 hwc
      subst hw2
      rw [endTag_match _ id w.workingBuffer.length w.openTags
        (by simp [startTag]) (by simp [startTag])] at h
      have hsz : ({ startTag w id with
          workingBuffer := (startTag w id).workingBuffer ++ encC } :
          TagWriter).workingBuffer.length - w.workingBuffer.length = encC.length := by
        simp [startTag]
      rw [hsz] at h
      rcases hsv : asVint encC.length with _ | sv
      · rw [finalizeTag_errSize _ _ _ hsv] at h
        exact absurd (congrArg Prod.snd h) (by simp)
      · rw [finalizeTag_append_empty _ id w.workingBuffer encC sv
          (by simp [startTag]) hsv (by simp [startTag, hemp])] at h
        refine ⟨strippedId id ++ sv ++ encC, ?_, ?_⟩
        · simp [encodeTag, payloadBytes, hcb, hsv, List.append_assoc]
        · have hfst := congrArg Prod.fst h
          simp only at hfst
          rw [← hfst]
          simp [startTag, List.append_assoc]
    | errClose a b =>
      replace h : ((w2, WStatus.errClose a b) : TagWriter × WStatus) = (w', .ok) := h
      exact absurd (congrArg Prod.snd h) (by simp)
    | errSize =>
      replace h : ((w2, WStatus.errSize) : TagWriter × WStatus) = (w', .ok) := h
      exact absurd (congrArg Prod.snd h) (by simp)
    | panic =>
      replace h : ((w2, WStatus.panic) : TagWriter × WStatus) = (w', .ok) := h
      exact absurd (congrArg Prod.snd h) (by simp)
  | UnsignedInt v =>
    simp only [writeFullTag] at h
    rcases hsv : asVint ((uintBytes v).2) with _ | sv
    · rw [finalizeTag_errSize _ _ _ hsv] at h
      exact absurd (congrArg Prod.snd h) (by simp)
    · have hq : (uintBytes v).1.length = (uintBytes v).2 := uintBytes_length v
      have hfin := finalizeTag_append_empty
        { w with workingBuffer := w.workingBuffer ++ (uintBytes v).1 } id
        w.workingBuffer (uintBytes v).1 sv rfl (by rw [hq]; exact hsv) hemp
      rw [hq] at hfin
      rw [hfin] at h
      refine ⟨strippedId id ++ sv ++ (uintBytes v).1, ?_, ?_⟩
      · simp [encodeTag, payloadBytes, hq, hsv, List.append_assoc]
      · have hfst := congrArg Prod.fst h
        simp only at hfst
        rw [← hfst]
        simp [List.append_assoc]
  | Integer v =>
    simp only [writeFullTag] at h
    rcases hsv : asVint ((intBytes v).2) with _ | sv
    · rw [finalizeTag_errSize _ _ _ hsv] at h
      exact absurd (congrArg Prod.snd h) (by simp)
    · have hq : (intBytes v).1.length = (intBytes v).2 := intBytes_length v
      have hfin := finalizeTag_append_empty
        { w with workingBuffer := w.workingBuffer ++ (intBytes v).1 } id
        w.workingBuffer (intBytes v).1 sv rfl (by rw [hq]; exact hsv) hemp
      rw [hq] at hfin
      rw [hfin] at h
      refine ⟨strippedId id ++ sv ++ (intBytes v).1, ?_, ?_⟩
      · simp [encodeTag, payloadBytes, hq, hsv, List.append_assoc]
      · have hfst := congrArg Prod.fst h
        simp only at hfst
        rw [← hfst]
        simp [List.append_assoc]
  | Utf8 bs =>
    simp only [writeFullTag] at h
    rcases hsv : asVint bs.length with _ | sv
    · rw [finalizeTag_errSize _ _ _ hsv] at h
      exact absurd (congrArg Prod.snd h) (by simp)
    · rw [finalizeTag_append_empty
        { w with workingBuffer := w.workingBuffer ++ bs } id
        w.workingBuffer bs sv rfl hsv hemp] at h
      refine ⟨strippedId id ++ sv ++ bs, ?_, ?_⟩
      · simp [encodeTag, payloadBytes, hsv, List.append_assoc]
      · have hfst := congrArg Prod.fst h
        simp only at hfst
        rw [← hfst]
        simp [List.append_assoc]
  | Binary bs =>
    simp only [writeFullTag] at h
    rcases hsv : asVint bs.length with _ | sv
    · rw [finalizeTag_errSize _ _ _ hsv] at h
      exact absurd (congrArg Prod.snd h) (by simp)
    · rw [finalizeTag_append_empty
        { w with workingBuffer := w.workingBuffer ++ bs } id
        w.workingBuffer bs sv rfl hsv hemp] at h
      refine ⟨strippedId id ++ sv ++ bs, ?_, ?_⟩
      · simp [encodeTag, payloadBytes, hsv, List.append_assoc]
      · have hfst := congrArg Prod.fst h
        simp only at hfst
        rw [← hfst]
        simp [List.append_assoc]
  | Float bits =>
    simp only [writeFullTag] at h
    rcases hsv : asVint (8 : Nat) with _ | sv
    · rw [finalizeTag_errSize _ _ _ hsv] at h
      exact absurd (congrArg Prod.snd h) (by simp)
    · have hq : (natToBeBytes 8 bits).length = 8 := natToBeBytes_length 8 bits
      have hfin := finalizeTag_append_empty
        { w with workingBuffer := w.workingBuffer ++ natToBeBytes 8 bits } id
        w.workingBuffer (natToBeBytes 8 bits) sv rfl (by rw [hq]; exact hsv) hemp
      rw [hq] at hfin
      rw [hfin] at h
      refine ⟨strippedId id ++ sv ++ natToBeBytes 8 bits, ?_, ?_⟩
      · simp [encodeTag, payloadBytes, hq, hsv, List.append_assoc]
      · have hfst := congrArg Prod.fst h
        simp only at hfst
        rw [← hfst]
        simp [List.append_assoc]

/-! ### Decoder correctness on encoder output -/

theorem beToNat_uintBytes (v : Nat) (h : v < 2 ^ 64) : beToNat (uintBytes v).1 = v := by
  unfold uintBytes
  split_ifs with h1 h2 h3 <;> rw [beToNat_natToBeBytes] <;> norm_num <;> omega

theorem beToInt_one (v : Int) (h1 : -128 ≤ v) (h2 : v < 128) :
    beToInt (intToBeBytes 1 v) = v := by
  simp only [intToBeBytes]
  have hm : (((v % ((2 : Int) ^ (8 * 1))).toNat : Nat) : Int) = v % ((2 : Int) ^ (8 * 1)) :=
    Int.toNat_of_nonneg (Int.emod_nonneg _ (by norm_num))
  norm_num at hm ⊢
  simp only [natToBeBytes, List.nil_append, beToInt, beToNat, List.foldl, List.length]
  split_ifs <;> omega

theorem beToInt_two (v : Int) (h1 : -32768 ≤ v) (h2 : v < 32768) :
    beToInt (intToBeBytes 2 v) = v := by
  simp only [intToBeBytes]
  have hm : (((v % ((2 : Int) ^ (8 * 2))).toNat : Nat) : Int) = v % ((2 : Int) ^ (8 * 2)) :=
    Int.toNat_of_nonneg (Int.emod_nonneg _ (by norm_num))
  norm_num at hm ⊢
  simp only [natToBeBytes, List.nil_append, List.cons_append, beToInt, beToNat, List.foldl,
    List.length]
  split_ifs <;> omega

theorem beToInt_four (v : Int) (h1 : -2147483648 ≤ v) (h2 : v < 2147483648) :
    beToInt (intToBeBytes 4 v) = v := by
  simp only [intToBeBytes]
  have hm : (((v % ((2 : Int) ^ (8 * 4))).toNat : Nat) : Int) = v % ((2 : Int) ^ (8 * 4)) :=
    Int.toNat_of_nonneg (Int.emod_nonneg _ (by norm_num))
  norm_num at hm ⊢
  simp only [natToBeBytes, List.nil_append, List.cons_append, beToInt, beToNat, List.foldl,
    List.length, Nat.div_div_eq_div_mul]
  norm_num
  split_ifs <;> omega

theorem beToInt_peel (n m : Nat) (hm : m < 256 ^ (n + 1)) :
    beToInt (natToBeBytes (n + 1) m) =
      if 128 ≤ m / 256 ^ n % 256 then (m : Int) - 2 ^ (8 * (n + 1)) else (m : Int) := by
  conv_lhs => rw [natToBeBytes_succ]
  simp only [beToInt]
  rw [← natToBeBytes_succ]
  simp [beToNat_natToBeBytes, natToBeBytes_length, Nat.mod_eq_of_lt hm]

theorem beToInt_eight (v : Int) (h1 : -(2 : Int) ^ 63 ≤ v) (h2 : v < (2 : Int) ^ 63) :
    beToInt (intToBeBytes 8 v) = v := by
  simp only [intToBeBytes]
  have h2568 : (256 : Nat) ^ (7 + 1) = 2 ^ 64 := by norm_num
  have hmn : (v % ((2 : Int) ^ (8 * 8))).toNat < 256 ^ (7 + 1) := by
    rw [h2568]
    omega
  refine (beToInt_peel 7 _ hmn).trans ?_
  split_ifs with hif <;> omega

theorem beToInt_intBytes (v : Int) (hlo : -(2 : Int) ^ 63 ≤ v) (hhi : v < (2 : Int) ^ 63) :
    beToInt (intBytes v).1 = v := by
  unfold intBytes
  split_ifs with h1 h2 h3
  · exact beToInt_one v h1.1 h1.2
  · exact beToInt_two v h2.1 h2.2
  · exact beToInt_four v h3.1 h3.2
  · exact beToInt_eight v hlo hhi

mutual

theorem decodeTagAs_encodeTag :
    ∀ (id : Nat) (data : TagData) (enc : List Nat), validTagId id = true →
      validIds data = true → wfData data = true → encodeTag id data = some enc →
      ∀ (r : List Nat), decodeTagAs data (enc ++ r) = some (id, data, r)
  | id, data, enc, hvid, hval, hwf, henc, r => by
    rcases hp : payloadBytes data with _ | p
    · simp only [encodeTag, hp, Option.none_bind] at henc
      exact Option.noConfusion henc
    · rcases hsv : asVint p.length with _ | sv
      · simp only [encodeTag, hp, Option.some_bind, hsv, Option.map_none'] at henc
        exact Option.noConfusion henc
      · simp only [encodeTag, hp, Option.some_bind, hsv, Option.map_some'] at henc
        injection henc with henc
        subst henc
        simp only [decodeTagAs]
        rw [List.append_assoc, List.append_assoc, readId_strippedId id hvid]
        simp only [Option.some_bind]
        rw [readVint_asVint _ _ _ hsv]
        simp only [Option.some_bind]
        rw [readBytes_exact p r _ rfl]
        simp only [Option.some_bind]
        rw [decodePayloadAs_self data p hval hwf hp]
        simp only [Option.map_some']
termination_by _ data => (sizeOf data, 1)

theorem decodePayloadAs_self :
    ∀ (data : TagData) (p : List Nat), validIds data = true → wfData data = true →
      payloadBytes data = some p → decodePayloadAs data p = some data
  | .Master children, p, hval, hwf, hp => by
    simp only [payloadBytes] at hp
    simp only [decodePayloadAs]
    rw [decodeChildrenAs_self children p (by simpa [validIds] using hval)
      (by simpa [wfData] using hwf) hp]
    simp only [Option.map_some']
  | .UnsignedInt v, p, hval, hwf, hp => by
    simp only [payloadBytes] at hp
    injection hp with hp
    subst hp
    simp only [decodePayloadAs]
    rw [beToNat_uintBytes v (by simpa [wfData] using hwf)]
  | .Integer v, p, hval, hwf, hp => by
    simp only [payloadBytes] at hp
    injection hp with hp
    subst hp
    simp only [decodePayloadAs]
    have hb : -(2 : Int) ^ 63 ≤ v ∧ v < (2 : Int) ^ 63 := by simpa [wfData] using hwf
    rw [beToInt_intBytes v hb.1 hb.2]
  | .Utf8 bs, p, hval, hwf, hp => by
    simp only [payloadBytes] at hp
    injection hp with hp
    subst hp
    simp only [decodePayloadAs]
  | .Binary bs, p, hval, hwf, hp => by
    simp only [payloadBytes] at hp
    injection hp with hp
    subst hp
    simp only [decodePayloadAs]
  | .Float bits, p, hval, hwf, hp => by
    simp only [payloadBytes] at hp
    injection hp with hp
    subst hp
    simp only [decodePayloadAs]
    rw [if_pos (natToBeBytes_length 8 bits), beToNat_natToBeBytes]
    have h64 : bits < 2 ^ 64 := by simpa [wfData] using hwf
    rw [show (256 : Nat) ^ 8 = 2 ^ 64 by norm_num, Nat.mod_eq_of_lt h64]
termination_by data => (sizeOf data, 0)

theorem decodeChildrenAs_self :
    ∀ (cs : List (Nat × TagData)) (p : List Nat), validChildIds cs = true →
      wfChildren cs = true → childrenBytes cs = some p →
      decodeChildrenAs cs p = some cs
  | [], p, hval, hwf, hp => by
    simp only [childrenBytes] at hp
    injection hp with hp
    subst hp
    simp [decodeChildrenAs]
  | (cid, cdata) :: rest, p, hval, hwf, hp => by
    simp only [childrenBytes] at hp
    rcases he : encodeTag cid cdata with _ | e
    · rw [he] at hp
      simp at hp
    · rcases hrest : childrenBytes rest with _ | es
      · rw [he, hrest] at hp
        simp at hp
      · rw [he, hrest] at hp
        simp only [Option.some_bind, Option.map_some'] at hp
        injection hp with hp
        subst hp
        simp only [validChildIds, Bool.and_eq_true] at hval
        simp only [wfChildren, Bool.and_eq_true] at hwf
        simp only [decodeChildrenAs]
        rw [decodeTagAs_encodeTag cid cdata e hval.1.1 hval.1.2 hwf.1 he es]
        simp only [Option.some_bind]
        rw [decodeChildrenAs_self rest es hval.2 hwf.2 hrest]
        simp only [Option.map_some']
termination_by cs => (sizeOf cs, 2)

end

/-! ### Stack invariant, panic freedom, sink behaviour -/

theorem startTag_inv (w : TagWriter) (id : Nat) (hinv : StackInv w) :
    StackInv (startTag w id) := by
  intro pr hpr
  simp only [startTag, List.mem_cons] at hpr
  simp only [startTag]
  rcases hpr with hpr | hpr
  · simp [hpr]
  · exact hinv pr hpr

theorem finalizeTag_openTags (w : TagWriter) (id size : Nat) :
    (finalizeTag w id size).1.openTags = w.openTags := by
  rcases hsv : asVint size with _ | sv <;> simp only [finalizeTag, hsv]
  split_ifs <;> rfl

theorem finalizeTag_noPanic (w : TagWriter) (id size : Nat)
    (hle : size ≤ w.workingBuffer.length) :
    (finalizeTag w id size).2 ≠ .panic := by
  rcases hsv : asVint size with _ | sv <;> simp only [finalizeTag, hsv]
  · simp
  · rw [if_pos hle]
    split_ifs <;> simp

theorem finalizeTag_inv (w : TagWriter) (id size : Nat) (hinv : StackInv w)
    (hle : size ≤ w.workingBuffer.length) :
    StackInv (finalizeTag w id size).1 := by
  rcases hsv : asVint size with _ | sv <;> simp only [finalizeTag, hsv]
  · exact hinv
  · rw [if_pos hle]
    split_ifs with hemp
    · intro pr hpr
      simp only [List.isEmpty_iff] at hemp
      simp only [hemp] at hpr
      simp at hpr
    · intro pr hpr
      simp only at hpr
      have h1 := hinv pr hpr
      simp only
      rw [List.length_append, List.length_append, List.length_take, List.length_drop]
      omega

theorem endTag_noPanic_inv (w : TagWriter) (id : Nat) (hinv : StackInv w) :
    (endTag w id).2 ≠ .panic ∧ StackInv (endTag w id).1 := by
  rcases hot : w.openTags with _ | ⟨⟨tid, off⟩, rest⟩ <;> simp only [endTag, hot]
  · exact ⟨by simp, fun pr hpr => hinv pr hpr⟩
  · have hoff : off ≤ w.workingBuffer.length := hinv (tid, off) (by rw [hot]; simp)
    have hinv1 : StackInv { w with openTags := rest } := by
      intro pr hpr
      exact hinv pr (by rw [hot]; simp only [List.mem_cons]; right; exact hpr)
    by_cases htid : tid = id
    · rw [if_pos htid, if_pos hoff]
      exact ⟨finalizeTag_noPanic _ _ _ (by simp), finalizeTag_inv _ _ _ hinv1 (by simp)⟩
    · rw [if_neg htid]
      exact ⟨by simp, hinv1⟩

mutual

theorem writeFullTag_noPanic :
    ∀ (w : TagWriter) (id : Nat) (data : TagData), StackInv w →
      (writeFullTag w id data).2 ≠ .panic ∧ StackInv (writeFullTag w id data).1
  | w, id, .Master children, hinv => by
    rcases hwc : writeChildren (startTag w id) children with ⟨w2, s2⟩
    have hc := writeChildren_noPanic (startTag w id) children (startTag_inv w id hinv)
    rw [hwc] at hc
    simp only [writeFullTag]
    rw [hwc]
    cases s2 with
    | ok => exact endTag_noPanic_inv w2 id hc.2
    | errClose a b => exact ⟨by simp, hc.2⟩
    | errSize => exact ⟨by simp, hc.2⟩
    | panic => exact ⟨by simpa using hc.1, hc.2⟩
  | w, id, .UnsignedInt v, hinv => by
    simp only [writeFullTag]
    have hq : (uintBytes v).1.length = (uintBytes v).2 := uintBytes_length v
    have hinv2 : StackInv { w with workingBuffer := w.workingBuffer ++ (uintBytes v).1 } := by
      intro pr hpr
      have := hinv pr hpr
      simp only [List.length_append]
      omega
    exact ⟨finalizeTag_noPanic _ _ _ (by simp [← hq]),
      finalizeTag_inv _ _ _ hinv2 (by simp [← hq])⟩
  | w, id, .Integer v, hinv => by
    simp only [writeFullTag]
    have hq : (intBytes v).1.length = (intBytes v).2 := intBytes_length v
    have hinv2 : StackInv { w with workingBuffer := w.workingBuffer ++ (intBytes v).1 } := by
      intro pr hpr
      have := hinv pr hpr
      simp only [List.length_append]
      omega
    exact ⟨finalizeTag_noPanic _ _ _ (by simp [← hq]),
      finalizeTag_inv _ _ _ hinv2 (by simp [← hq])⟩
  | w, id, .Utf8 bs, hinv => by
    simp only [writeFullTag]
    have hinv2 : StackInv { w with workingBuffer := w.workingBuffer ++ bs } := by
      intro pr hpr
      have := hinv pr hpr
      simp only [List.length_append]
      omega
    exact ⟨finalizeTag_noPanic _ _ _ (by simp), finalizeTag_inv _ _ _ hinv2 (by simp)⟩
  | w, id, .Binary bs, hinv => by
    simp only [writeFullTag]
    have hinv2 : StackInv { w with workingBuffer := w.workingBuffer ++ bs } := by
      intro pr hpr
      have := hinv pr hpr
      simp only [List.length_append]
      omega
    exact ⟨finalizeTag_noPanic _ _ _ (by simp), finalizeTag_inv _ _ _ hinv2 (by simp)⟩
  | w, id, .Float bits, hinv => by
    simp only [writeFullTag]
    have hinv2 : StackInv { w with workingBuffer := w.workingBuffer ++ natToBeBytes 8 bits } := by
      intro pr hpr
      have := hinv pr hpr
      simp only [List.length_append]
      omega
    exact ⟨finalizeTag_noPanic _ _ _ (by simp [natToBeBytes_length]),
      finalizeTag_inv _ _ _ hinv2 (by simp [natToBeBytes_length])⟩

theorem writeChildren_noPanic :
    ∀ (w : TagWriter) (cs : List (Nat × TagData)), StackInv w →
      (writeChildren w cs).2 ≠ .panic ∧ StackInv (writeChildren w cs).1
  | w, [], hinv => by
    simp only [writeChildren]
    exact ⟨by simp, hinv⟩
  | w, (cid, cdata) :: rest, hinv => by
    rcases hwf : writeFullTag w cid cdata with ⟨w1, s1⟩
    have h1 := writeFullTag_noPanic w cid cdata hinv
    rw [hwf] at h1
    simp only [writeChildren]
    rw [hwf]
    cases s1 with
    | ok => exact writeChildren_noPanic w1 rest h1.2
    | errClose a b => exact ⟨by simp, h1.2⟩
    | errSize => exact ⟨by simp, h1.2⟩
    | panic => exact ⟨by simpa using h1.1, h1.2⟩

end

theorem writeTag_noPanic (w : TagWriter) (e : TagPosition) (hinv : StackInv w) :
    (writeTag w e).2 ≠ .panic ∧ StackInv (writeTag w e).1 := by
  cases e with
  | StartTag id =>
    simp only [writeTag]
    exact ⟨by simp, startTag_inv w id hinv⟩
  | EndTag id =>
    simp only [writeTag]
    exact endTag_noPanic_inv w id hinv
  | FullTag id data =>
    simp only [writeTag]
    exact writeFullTag_noPanic w id data hinv

theorem runWrites_noPanic (evs : List TagPosition) :
    ∀ (w : TagWriter), StackInv w → WStatus.panic ∉ (runWrites w evs).2 := by
  induction evs with
  | nil => intro w _ h; simp [runWrites] at h
  | cons e rest ih =>
    intro w hinv
    have h := writeTag_noPanic w e hinv
    simp only [runWrites, List.mem_cons]
    rintro (h1 | h1)
    · exact h.1 h1.symm
    · exact ih (writeTag w e).1 h.2 h1

theorem finalizeTag_sink_ne (w : TagWriter) (id size : Nat) (hne : w.openTags ≠ []) :
    (finalizeTag w id size).1.sinkWrites = w.sinkWrites ∧
    (finalizeTag w id size).1.sinkFlushes = w.sinkFlushes := by
  have hemp : w.openTags.isEmpty = false := by
    cases h : w.openTags
    · exact absurd h hne
    · rfl
  rcases hsv : asVint size with _ | sv <;> simp only [finalizeTag, hsv]
  · simp
  · split_ifs <;> simp_all

theorem endTag_sink_pop (w : TagWriter) (id tid off : Nat) (rest : List (Nat × Nat))
    (hot : w.openTags = (tid, off) :: rest) (hne : rest ≠ []) :
    (endTag w id).1.sinkWrites = w.sinkWrites ∧
    (endTag w id).1.sinkFlushes = w.sinkFlushes := by
  simp only [endTag, hot]
  by_cases htid : tid = id
  · rw [if_pos htid]
    split_ifs with hoffh
    · exact finalizeTag_sink_ne _ _ _ hne
    · exact ⟨rfl, rfl⟩
  · rw [if_neg htid]
    exact ⟨rfl, rfl⟩

mutual

theorem writeFullTag_sink :
    ∀ (w : TagWriter) (id : Nat) (data : TagData), w.openTags ≠ [] →
      (writeFullTag w id data).1.sinkWrites = w.sinkWrites ∧
      (writeFullTag w id data).1.sinkFlushes = w.sinkFlushes
  | w, id, .Master children, hne => by
    rcases hwc : writeChildren (startTag w id) children with ⟨w2, s2⟩
    have hcs := writeChildren_sink (startTag w id) children (by simp [startTag])
    rw [hwc] at hcs
    simp only [startTag] at hcs
    simp only [writeFullTag]
    rw [hwc]
    cases s2 with
    | ok =>
      obtain ⟨encC, _, hw2⟩ :=
        writeChildren_ok_append (startTag w id) children (by simp [startTag]) w2 hwc
      subst hw2
      exact endTag_sink_pop _ id id w.workingBuffer.length w.openTags
        (by simp [startTag]) hne
    | errClose a b => exact hcs
    | errSize => exact hcs
    | panic => exact hcs
  | w, id, .UnsignedInt v, hne => by
    simp only [writeFullTag]
    exact finalizeTag_sink_ne _ _ _ hne
  | w, id, .Integer v, hne => by
    simp only [writeFullTag]
    exact finalizeTag_sink_ne _ _ _ hne
  | w, id, .Utf8 bs, hne => by
    simp only [writeFullTag]
    exact finalizeTag_sink_ne _ _ _ hne
  | w, id, .Binary bs, hne => by
    simp only [writeFullTag]
    exact finalizeTag_sink_ne _ _ _ hne
  | w, id, .Float bits, hne => by
    simp only [writeFullTag]
    exact finalizeTag_sink_ne _ _ _ hne

theorem writeChildren_sink :
    ∀ (w : TagWriter) (cs : List (Nat × TagData)), w.openTags ≠ [] →
      (writeChildren w cs).1.sinkWrites = w.sinkWrites ∧
      (writeChildren w cs).1.sinkFlushes = w.sinkFlushes
  | w, [], _ => by
    simp [writeChildren]
  | w, (cid, cdata) :: rest, hne => by
    rcases hwf : writeFullTag w cid cdata with ⟨w1, s1⟩
    have h1 := writeFullTag_sink w cid cdata hne
    rw [hwf] at h1
    simp only [writeChildren]
    rw [hwf]
    cases s1 with
    | ok =>
      obtain ⟨e1, _, hw1⟩ := writeFullTag_ok_append w cid cdata hne w1 hwf
      subst hw1
      exact writeChildren_sink _ rest (by simpa using hne)
    | errClose a b => exact h1
    | errSize => exact h1
    | panic => exact h1

end

theorem finalizeTag_err_sink (w : TagWriter) (id size : Nat)
    (hs : (finalizeTag w id size).2 ≠ .ok) :
    (finalizeTag w id size).1.sinkWrites = w.sinkWrites ∧
    (finalizeTag w id size).1.sinkFlushes = w.sinkFlushes := by
  rcases hsv : asVint size with _ | sv <;> simp only [finalizeTag, hsv] at hs ⊢
  · simp
  · split_ifs at hs ⊢ <;> first | (exact absurd rfl hs) | simp

theorem endTag_err_sink (w : TagWriter) (id : Nat) (hs : (endTag w id).2 ≠ .ok) :
    (endTag w id).1.sinkWrites = w.sinkWrites ∧
    (endTag w id).1.sinkFlushes = w.sinkFlushes := by
  rcases hot : w.openTags with _ | ⟨⟨tid, off⟩, rest⟩ <;> simp only [endTag, hot] at hs ⊢
  · simp
  · by_cases htid : tid = id
    · rw [if_pos htid] at hs ⊢
      by_cases hoffh : off ≤ w.workingBuffer.length
      · rw [if_pos hoffh] at hs ⊢
        exact finalizeTag_err_sink _ _ _ hs
      · rw [if_neg hoffh]
        simp
    · rw [if_neg htid]
      simp

theorem finalizeTag_sink_cases (w : TagWriter) (id size : Nat) :
    ((finalizeTag w id size).2 = .ok ∧ w.openTags = [] ∧
      (finalizeTag w id size).1.sinkWrites.length = w.sinkWrites.length + 1 ∧
      (finalizeTag w id size).1.sinkFlushes = w.sinkFlushes + 1) ∨
    (¬((finalizeTag w id size).2 = .ok ∧ w.openTags = []) ∧
      (finalizeTag w id size).1.sinkWrites = w.sinkWrites ∧
      (finalizeTag w id size).1.sinkFlushes = w.sinkFlushes) := by
  rcases hsv : asVint size with _ | sv <;> simp only [finalizeTag, hsv]
  · right
    simp
  · split_ifs with h1 h2
    · left
      rw [List.isEmpty_iff] at h2
      simp [h2]
    · right
      refine ⟨?_, by simp, by simp⟩
      rintro ⟨_, hemp⟩
      rw [List.isEmpty_iff] at h2
      exact h2 hemp
    · right
      simp

theorem endTag_sink_cases (w : TagWriter) (id : Nat) :
    ((endTag w id).2 = .ok ∧ (endTag w id).1.openTags = [] ∧
      (endTag w id).1.sinkWrites.length = w.sinkWrites.length + 1 ∧
      (endTag w id).1.sinkFlushes = w.sinkFlushes + 1) ∨
    (¬((endTag w id).2 = .ok ∧ (endTag w id).1.openTags = []) ∧
      (endTag w id).1.sinkWrites = w.sinkWrites ∧
      (endTag w id).1.sinkFlushes = w.sinkFlushes) := by
  rcases hot : w.openTags with _ | ⟨⟨tid, off⟩, rest⟩
  · rw [endTag_empty w id hot]
    right
    simp
  · by_cases htid : tid = id
    · subst htid
      by_cases hoffh : off ≤ w.workingBuffer.length
      · rw [endTag_match w tid off rest hot hoffh]
        have hcases := finalizeTag_sink_cases { w with openTags := rest } tid
          (w.workingBuffer.length - off)
        have hopen := finalizeTag_openTags { w with openTags := rest } tid
          (w.workingBuffer.length - off)
        rcases hcases with ⟨ha, hb, hc, hd⟩ | ⟨ha, hb, hc⟩
        · left
          exact ⟨ha, by rw [hopen]; exact hb, hc, hd⟩
        · right
          refine ⟨?_, hb, hc⟩
          rintro ⟨hok, hemp⟩
          exact ha ⟨hok, by rw [hopen] at hemp; exact hemp⟩
      · simp only [endTag, hot]
        rw [if_pos trivial, if_neg hoffh]
        right
        simp
    · rw [endTag_mismatch w id tid off rest hot htid]
      right
      simp

theorem writeFullTag_err_sink_empty (w : TagWriter) (id : Nat) (data : TagData)
    (hs : (writeFullTag w id data).2 ≠ .ok) :
    (writeFullTag w id data).1.sinkWrites = w.sinkWrites ∧
    (writeFullTag w id data).1.sinkFlushes = w.sinkFlushes := by
  cases data with
  | Master children =>
    rcases hwc : writeChildren (startTag w id) children with ⟨w2, s2⟩
    have hcs := writeChildren_sink (startTag w id) children (by simp [startTag])
    rw [hwc] at hcs
    simp only [writeFullTag] at hs ⊢
    rw [hwc] at hs ⊢
    cases s2 with
    | ok =>
      replace hs : (endTag w2 id).2 ≠ .ok := hs
      have he := endTag_err_sink w2 id hs
      exact ⟨he.1.trans hcs.1, he.2.trans hcs.2⟩
    | errClose a b => exact hcs
    | errSize => exact hcs
    | panic => exact hcs
  | UnsignedInt v =>
    simp only [writeFullTag] at hs ⊢
    exact finalizeTag_err_sink _ _ _ hs
  | Integer v =>
    simp only [writeFullTag] at hs ⊢
    exact finalizeTag_err_sink _ _ _ hs
  | Utf8 bs =>
    simp only [writeFullTag] at hs ⊢
    exact finalizeTag_err_sink _ _ _ hs
  | Binary bs =>
    simp only [writeFullTag] at hs ⊢
    exact finalizeTag_err_sink _ _ _ hs
  | Float bits =>
    simp only [writeFullTag] at hs ⊢
    exact finalizeTag_err_sink _ _ _ hs

theorem writeFullTag_sink_cases (w : TagWriter) (id : Nat) (data : TagData) :
    ((writeFullTag w id data).2 = .ok ∧ (writeFullTag w id data).1.openTags = [] ∧
      (writeFullTag w id data).1.sinkWrites.length = w.sinkWrites.length + 1 ∧
      (writeFullTag w id data).1.sinkFlushes = w.sinkFlushes + 1) ∨
    (¬((writeFullTag w id data).2 = .ok ∧ (writeFullTag w id data).1.openTags = []) ∧
      (writeFullTag w id data).1.sinkWrites = w.sinkWrites ∧
      (writeFullTag w id data).1.sinkFlushes = w.sinkFlushes) := by
  rcases hft : writeFullTag w id data with ⟨w1, s1⟩
  by_cases hemp : w.openTags = []
  · by_cases hok : s1 = .ok
    · subst hok
      obtain ⟨enc, _, hw1⟩ := writeFullTag_ok_flush w id data hemp w1 hft
      subst hw1
      left
      simp [hemp]
    · right
      have := writeFullTag_err_sink_empty w id data (by rw [hft]; exact hok)
      rw [hft] at this
      exact ⟨fun hc => hok hc.1, this.1, this.2⟩
  · have hsink := writeFullTag_sink w id data hemp
    rw [hft] at hsink
    right
    refine ⟨?_, hsink.1, hsink.2⟩
    rintro ⟨hok, hopen⟩
    subst hok
    obtain ⟨enc, _, hw1⟩ := writeFullTag_ok_append w id data hemp w1 hft
    subst hw1
    exact hemp hopen

theorem finalizeTag_ok_empty (w : TagWriter) (id size : Nat) (w' : TagWriter)
    (h : finalizeTag w id size = (w', .ok)) (hemp : w'.openTags = []) :
    w'.workingBuffer = [] := by
  rcases hsv : asVint size with _ | sv <;> simp only [finalizeTag, hsv] at h
  · exact absurd (congrArg Prod.snd h) (by simp)
  · split_ifs at h with h1 h2
    · have hfst := congrArg Prod.fst h
      simp only at hfst
      rw [← hfst]
    · have hfst := congrArg Prod.fst h
      simp only at hfst
      rw [← hfst] at hemp
      simp only at hemp
      rw [List.isEmpty_iff] at h2
      exact absurd hemp h2
    · exact absurd (congrArg Prod.snd h) (by simp)

theorem endTag_ok_empty (w : TagWriter) (id : Nat) (w' : TagWriter)
    (h : endTag w id = (w', .ok)) (hemp : w'.openTags = []) :
    w'.workingBuffer = [] := by
  rcases hot : w.openTags with _ | ⟨⟨tid, off⟩, rest⟩ <;> simp only [endTag, hot] at h
  · exact absurd (congrArg Prod.snd h) (by simp)
  · split_ifs at h with htid hoffh
    · exact finalizeTag_ok_empty _ _ _ _ h hemp
    · exact absurd (congrArg Prod.snd h) (by simp)
    · exact absurd (congrArg Prod.snd h) (by simp)

theorem writeTag_ok_empty (w : TagWriter) (e : TagPosition) (w' : TagWriter)
    (h : writeTag w e = (w', .ok)) (hemp : w'.openTags = []) :
    w'.workingBuffer = [] := by
  cases e with
  | StartTag id =>
    simp only [writeTag] at h
    have := congrArg Prod.fst h
    simp only at this
    rw [← this] at hemp
    simp [startTag] at hemp
  | EndTag id =>
    simp only [writeTag] at h
    exact endTag_ok_empty w id w' h hemp
  | FullTag id data =>
    simp only [writeTag] at h
    cases data with
    | Master children =>
      rcases hwc : writeChildren (startTag w id) children with ⟨w2, s2⟩
      simp only [writeFullTag] at h
      rw [hwc] at h
      cases s2 with
      | ok =>
        replace h : endTag w2 id = (w', .ok) := h
        exact endTag_ok_empty w2 id w' h hemp
      | errClose a b =>
        replace h : ((w2, WStatus.errClose a b) : TagWriter × WStatus) = (w', .ok) := h
        exact absurd (congrArg Prod.snd h) (by simp)
      | errSize =>
        replace h : ((w2, WStatus.errSize) : TagWriter × WStatus) = (w', .ok) := h
        exact absurd (congrArg Prod.snd h) (by simp)
      | panic =>
        replace h : ((w2, WStatus.panic) : TagWriter × WStatus) = (w', .ok) := h
        exact absurd (congrArg Prod.snd h) (by simp)
    | UnsignedInt v =>
      simp only [writeFullTag] at h
      exact finalizeTag_ok_empty _ _ _ _ h hemp
    | Integer v =>
      simp only [writeFullTag] at h
      exact finalizeTag_ok_empty _ _ _ _ h hemp
    | Utf8 bs =>
      simp only [writeFullTag] at h
      exact finalizeTag_ok_empty _ _ _ _ h hemp
    | Binary bs =>
      simp only [writeFullTag] at h
      exact finalizeTag_ok_empty _ _ _ _ h hemp
    | Float bits =>
      simp only [writeFullTag] at h
      exact finalizeTag_ok_empty _ _ _ _ h hemp

theorem runWrites_ok_empty (evs : List TagPosition) :
    ∀ (w : TagWriter), (w.openTags = [] → w.workingBuffer = []) →
      (∀ s ∈ (runWrites w evs).2, s = .ok) →
      ((runWrites w evs).1.openTags = [] → (runWrites w evs).1.workingBuffer = []) := by
  induction evs with
  | nil => intro w hw _; exact hw
  | cons e rest ih =>
    intro w _ hok
    rcases hwt : writeTag w e with ⟨w1, s1⟩
    have hs1 : s1 = .ok := by
      apply hok
      simp [runWrites, hwt]
    subst hs1
    have h1 : w1.openTags = [] → w1.workingBuffer = [] :=
      fun hemp => writeTag_ok_empty w e w1 hwt hemp
    have hok' : ∀ s ∈ (runWrites w1 rest).2, s = .ok := by
      intro s hs
      apply hok
      simp only [runWrites, hwt, List.mem_cons]
      exact Or.inr hs
    have := ih w1 h1 hok'
    simpa [runWrites, hwt] using this

/-! ### Claim theorems -/

/-- C3: in `finalize_tag(id, size)`, the insertion index
`current buffer length - size` equals the offset where the tag's own
payload `q` begins (the length of the preceding bytes `p`), and the bytes
spliced in at that index — leaving `p` and `q` intact — are exactly the
big-endian representation of `id` with leading zero bytes stripped,
followed by the vint encoding of `size`. -/
theorem c3_finalize_splice (w : TagWriter) (id : Nat) (p q sv : List Nat)
    (hbuf : w.workingBuffer = p ++ q) (hsv : asVint q.length = some sv) :
    w.workingBuffer.length - q.length = p.length ∧
    strippedId id = (natToBeBytes 8 id).dropWhile (fun b => b == 0) ∧
    (w.openTags = [] →
      finalizeTag w id q.length =
        ({ w with workingBuffer := [],
                  sinkWrites := w.sinkWrites ++ [p ++ (strippedId id ++ sv) ++ q],
                  sinkFlushes := w.sinkFlushes + 1 }, .ok)) ∧
    (w.openTags ≠ [] →
      finalizeTag w id q.length =
        ({ w with workingBuffer := p ++ (strippedId id ++ sv) ++ q }, .ok)) := by
  refine ⟨by rw [hbuf]; simp, rfl, ?_, ?_⟩
  · intro hemp
    exact finalizeTag_append_empty w id p q sv hbuf hsv hemp
  · intro hne
    exact finalizeTag_append_nonempty w id p q sv hbuf hsv hne

theorem c3_finalize_splice_witness :
    (⟨[(7, 0)], [1, 2, 3], [], 0⟩ : TagWriter).workingBuffer.length - 3 = 0 ∧
    strippedId 129 = (natToBeBytes 8 129).dropWhile (fun b => b == 0) ∧
    finalizeTag ⟨[(7, 0)], [1, 2, 3], [], 0⟩ 129 3 =
      (⟨[(7, 0)], [129, 131, 1, 2, 3], [], 0⟩, .ok) := by
  have h := c3_finalize_splice ⟨[(7, 0)], [1, 2, 3], [], 0⟩ 129 [] [1, 2, 3] [131]
    rfl (by decide)
  refine ⟨h.1, h.2.1, ?_⟩
  have h4 := h.2.2.2 (by decide)
  rw [show ([1, 2, 3] : List Nat).length = 3 from rfl] at h4
  rw [h4]
  decide

/-- C5: `write(EndTag(id))` with an empty open-tag stack returns
`UnexpectedClosingTag` with `expected_id = None`; with a mismatching top
it returns `expected_id = Some topId` and permanently removes the top
entry; with a matching top it finalizes the popped tag with size equal to
the buffer length minus the popped start offset. -/
theorem c5_end_tag_cases (w : TagWriter) (id : Nat) :
    (w.openTags = [] → writeTag w (.EndTag id) = (w, .errClose id none)) ∧
    (∀ tid off rest, w.openTags = (tid, off) :: rest → tid ≠ id →
      writeTag w (.EndTag id) = ({ w with openTags := rest }, .errClose id (some tid))) ∧
    (∀ off rest, w.openTags = (id, off) :: rest → off ≤ w.workingBuffer.length →
      writeTag w (.EndTag id) =
        finalizeTag { w with openTags := rest } id (w.workingBuffer.length - off)) := by
  refine ⟨?_, ?_, ?_⟩
  · intro hemp
    exact endTag_empty w id hemp
  · intro tid off rest hot hne
    exact endTag_mismatch w id tid off rest hot hne
  · intro off rest hot hle
    exact endTag_match w id off rest hot hle

theorem c5_end_tag_cases_witness :
    writeTag ⟨[], [9], [], 0⟩ (.EndTag 5) = (⟨[], [9], [], 0⟩, .errClose 5 none) ∧
    writeTag ⟨[(7, 0)], [9], [], 0⟩ (.EndTag 5) = (⟨[], [9], [], 0⟩, .errClose 5 (some 7)) ∧
    writeTag ⟨[(5, 0)], [9], [], 0⟩ (.EndTag 5) = finalizeTag ⟨[], [9], [], 0⟩ 5 1 := by
  refine ⟨(c5_end_tag_cases _ 5).1 rfl, ?_, ?_⟩
  · have h := (c5_end_tag_cases ⟨[(7, 0)], [9], [], 0⟩ 5).2.1 7 0 [] rfl (by decide)
    exact h
  · have h := (c5_end_tag_cases ⟨[(5, 0)], [9], [], 0⟩ 5).2.2 0 [] rfl (by decide)
    exact h

/-- C8: for tag id 0 all eight zero bytes of the big-endian representation
are stripped, so the emitted header has no id bytes at all: the encoding of
`FullTag(0, payload)` is just the size vint followed by the payload
bytes. -/
theorem c8_zero_id (bs sv : List Nat) (hsv : asVint bs.length = some sv) :
    strippedId 0 = [] ∧
    (∀ data : TagData, encodeTag 0 data =
      (payloadBytes data).bind fun p => (asVint p.length).map fun v => v ++ p) ∧
    writeTag newWriter (.FullTag 0 (.Binary bs)) = (⟨[], [], [sv ++ bs], 1⟩, .ok) := by
  have h0 : strippedId 0 = [] := by decide
  refine ⟨h0, ?_, ?_⟩
  · intro data
    simp [encodeTag, h0]
  · have hf := finalizeTag_append_empty ⟨[], bs, [], 0⟩ 0 [] bs sv rfl hsv rfl
    rw [h0] at hf
    simpa using hf

theorem c8_zero_id_witness :
    strippedId 0 = [] ∧
    (∀ data : TagData, encodeTag 0 data =
      (payloadBytes data).bind fun p => (asVint p.length).map fun v => v ++ p) ∧
    writeTag newWriter (.FullTag 0 (.Binary [1, 2, 3])) = (⟨[], [], [[131, 1, 2, 3]], 1⟩, .ok) :=
  c8_zero_id [1, 2, 3] [131] (by decide)

/-- C9: starting from a fresh `TagWriter`, no sequence of `write` calls can
make the header-placement subtractions underflow: the `usize` subtraction
in `end_tag` and the `checked_sub(..).unwrap()` in `finalize_tag` (both
modelled by the `panic` status) never fire. -/
theorem c9_no_panic (evs : List TagPosition) :
    WStatus.panic ∉ (runWrites newWriter evs).2 :=
  runWrites_noPanic evs newWriter (by intro pr hpr; simp [newWriter] at hpr)

/-- C10: `write(EndTag(id))` on an empty open-tag stack returns the error
with the writer's entire state — stack, buffer and sink — unchanged. -/
theorem c10_end_tag_noop (w : TagWriter) (id : Nat) (hemp : w.openTags = []) :
    writeTag w (.EndTag id) = (w, .errClose id none) :=
  endTag_empty w id hemp

theorem c10_end_tag_noop_witness :
    writeTag ⟨[], [5, 6], [[7]], 3⟩ (.EndTag 42) =
      (⟨[], [5, 6], [[7]], 3⟩, .errClose 42 none) :=
  c10_end_tag_noop ⟨[], [5, 6], [[7]], 3⟩ 42 rfl

/-- C6 counterexample: after the single successful call `StartTag(1)` on a
fresh writer the working buffer is empty while the open-tag stack is not,
so "buffer empty iff stack empty (and no flush pending)" fails even for
error-free call sequences. -/
theorem c6_counterexample :
    (runWrites newWriter [.StartTag 1]).2 = [.ok] ∧
    ¬((runWrites newWriter [.StartTag 1]).1.workingBuffer = [] ↔
      (runWrites newWriter [.StartTag 1]).1.openTags = []) := by
  decide

/-- C6 amended: after every sequence of write calls that all succeeded, if
the open-tag stack is empty then the working buffer is empty; in
particular, after each successfully completed outermost tag the buffered
byte count is zero.  (The claim's "if and only if" fails: a `StartTag`
leaves the buffer empty with a non-empty stack, and an id-mismatched
`EndTag` error can empty the stack while payload bytes stay buffered.) -/
theorem c6_buffer_empty (evs : List TagPosition) (w' : TagWriter) (ss : List WStatus)
    (hrun : runWrites newWriter evs = (w', ss)) (hok : ∀ s ∈ ss, s = .ok)
    (hemp : w'.openTags = []) : w'.workingBuffer = [] := by
  have h := runWrites_ok_empty evs newWriter (fun _ => rfl)
  rw [hrun] at h
  exact h hok hemp

theorem c6_buffer_empty_witness :
    (runWrites newWriter [.StartTag 1, .EndTag 1]).1.workingBuffer = [] := by
  have h := c6_buffer_empty [.StartTag 1, .EndTag 1]
    (runWrites newWriter [.StartTag 1, .EndTag 1]).1
    (runWrites newWriter [.StartTag 1, .EndTag 1]).2 rfl (by decide) (by decide)
  exact h

/-- C7: in any single `write` call, the sink's write and flush are each
invoked exactly once when the call successfully finalizes a tag that
leaves no open ancestor (a completed outermost tag), and not at all
otherwise — in particular never while the open-tag stack is still
non-empty after the call. -/
theorem c7_flush_once (w : TagWriter) (e : TagPosition) (w' : TagWriter) (s : WStatus)
    (h : writeTag w e = (w', s)) :
    if s = .ok ∧ w'.openTags = [] ∧ closesTag e = true then
      w'.sinkWrites.length = w.sinkWrites.length + 1 ∧
      w'.sinkFlushes = w.sinkFlushes + 1
    else
      w'.sinkWrites = w.sinkWrites ∧ w'.sinkFlushes = w.sinkFlushes := by
  cases e with
  | StartTag id =>
    simp only [writeTag] at h
    rw [if_neg (by rintro ⟨_, _, hc⟩; simp [closesTag] at hc)]
    have hw := congrArg Prod.fst h
    simp only at hw
    rw [← hw]
    exact ⟨rfl, rfl⟩
  | EndTag id =>
    simp only [writeTag] at h
    have hc := endTag_sink_cases w id
    rw [h] at hc
    simp only at hc
    rcases hc with ⟨ha, hb, hcc, hd⟩ | ⟨ha, hb, hcc⟩
    · rw [if_pos ⟨ha, hb, rfl⟩]
      exact ⟨hcc, hd⟩
    · rw [if_neg (by rintro ⟨h1, h2, _⟩; exact ha ⟨h1, h2⟩)]
      exact ⟨hb, hcc⟩
  | FullTag id data =>
    simp only [writeTag] at h
    have hc := writeFullTag_sink_cases w id data
    rw [h] at hc
    simp only at hc
    rcases hc with ⟨ha, hb, hcc, hd⟩ | ⟨ha, hb, hcc⟩
    · rw [if_pos ⟨ha, hb, rfl⟩]
      exact ⟨hcc, hd⟩
    · rw [if_neg (by rintro ⟨h1, h2, _⟩; exact ha ⟨h1, h2⟩)]
      exact ⟨hb, hcc⟩

theorem c7_flush_once_witness :
    ((⟨[], [], [[129, 128]], 1⟩ : TagWriter).sinkWrites.length =
        (newWriter : TagWriter).sinkWrites.length + 1 ∧
      (⟨[], [], [[129, 128]], 1⟩ : TagWriter).sinkFlushes =
        (newWriter : TagWriter).sinkFlushes + 1) ∧
    ((startTag newWriter 7).sinkWrites = (newWriter : TagWriter).sinkWrites ∧
      (startTag newWriter 7).sinkFlushes = (newWriter : TagWriter).sinkFlushes) := by
  constructor
  · have h := c7_flush_once newWriter (.FullTag 129 (.Binary []))
      ⟨[], [], [[129, 128]], 1⟩ .ok (by rfl)
    rw [if_pos ⟨rfl, rfl, rfl⟩] at h
    exact h
  · have h := c7_flush_once newWriter (.StartTag 7) (startTag newWriter 7) .ok (by rfl)
    rw [if_neg (by rintro ⟨_, _, hc⟩; simp [closesTag] at hc)] at h
    exact h

theorem specU_eval (v : Nat) :
    specNarrowestUnsignedWidth v =
      if v < 2 ^ 8 then some 1 else if v < 2 ^ 16 then some 2
      else if v < 2 ^ 32 then some 4 else if v < 2 ^ 64 then some 8 else none := by
  unfold specNarrowestUnsignedWidth
  by_cases h1 : v < 256 <;> by_cases h2 : v < 65536 <;> by_cases h3 : v < 4294967296 <;>
    by_cases h4 : v < 18446744073709551616 <;> simp [List.find?, h1, h2, h3, h4]

theorem specS_eval (v : Int) :
    specNarrowestSignedWidth v =
      if -(2 : Int) ^ 7 ≤ v ∧ v < (2 : Int) ^ 7 then some 1
      else if -(2 : Int) ^ 15 ≤ v ∧ v < (2 : Int) ^ 15 then some 2
      else if -(2 : Int) ^ 31 ≤ v ∧ v < (2 : Int) ^ 31 then some 4
      else if -(2 : Int) ^ 63 ≤ v ∧ v < (2 : Int) ^ 63 then some 8 else none := by
  unfold specNarrowestSignedWidth
  by_cases h1 : (-128 : Int) ≤ v ∧ v < 128 <;>
    by_cases h2 : (-32768 : Int) ≤ v ∧ v < 32768 <;>
    by_cases h3 : (-2147483648 : Int) ≤ v ∧ v < 2147483648 <;>
    by_cases h4 : (-9223372036854775808 : Int) ≤ v ∧ v < 9223372036854775808 <;>
    simp [List.find?, h1, h2, h3, h4]

/-- C4: `UnsignedInt(v)` is appended big-endian using the narrowest width
among 1, 2, 4, 8 bytes (tested in that order) whose unsigned range
contains `v`, and that width is recorded as the tag's size;
`SignedInt(v)` does the same width search using each width's
two's-complement signed range; in particular 255 encodes to `[0xFF]`, 256
to `[0x01,0x00]`, 65536 to `[0x00,0x01,0x00,0x00]`, and a value needing
40 bits is promoted to 8 bytes. -/
theorem c4_width_selection :
    (∀ v : Nat, v < 2 ^ 64 →
      specNarrowestUnsignedWidth v = some (uintBytes v).2 ∧
      (uintBytes v).1 = natToBeBytes (uintBytes v).2 v ∧
      ∀ (w : TagWriter) (id : Nat),
        writeFullTag w id (.UnsignedInt v) =
          finalizeTag { w with workingBuffer := w.workingBuffer ++ (uintBytes v).1 } id
            (uintBytes v).2) ∧
    (∀ v : Int, -(2 : Int) ^ 63 ≤ v → v < (2 : Int) ^ 63 →
      specNarrowestSignedWidth v = some (intBytes v).2 ∧
      (intBytes v).1 = intToBeBytes (intBytes v).2 v ∧
      ∀ (w : TagWriter) (id : Nat),
        writeFullTag w id (.Integer v) =
          finalizeTag { w with workingBuffer := w.workingBuffer ++ (intBytes v).1 } id
            (intBytes v).2) ∧
    uintBytes 255 = ([255], 1) ∧ uintBytes 256 = ([1, 0], 2) ∧
    uintBytes 65536 = ([0, 1, 0, 0], 4) ∧ (uintBytes (2 ^ 39)).2 = 8 := by
  refine ⟨?_, ?_, by decide, by decide, by decide, by decide⟩
  · intro v hv
    refine ⟨?_, ?_, fun w id => rfl⟩
    · rw [specU_eval]
      unfold uintBytes
      split_ifs <;> first | rfl | (exfalso; omega)
    · unfold uintBytes
      split_ifs <;> rfl
  · intro v hlo hhi
    refine ⟨?_, ?_, fun w id => rfl⟩
    · rw [specS_eval]
      unfold intBytes
      split_ifs <;> first | rfl | (exfalso; omega)
    · unfold intBytes
      split_ifs <;> rfl

theorem c4_width_selection_witness :
    specNarrowestUnsignedWidth 300 = some (uintBytes 300).2 ∧
    specNarrowestSignedWidth (-300) = some (intBytes (-300)).2 :=
  ⟨(c4_width_selection.1 300 (by norm_num)).1,
   (c4_width_selection.2.1 (-300) (by norm_num) (by norm_num)).1⟩

/-- C1 counterexample: for id 0 the writer emits no id bytes at all —
`FullTag(0, Binary [])` delivers exactly `[0x80]` to the sink — and the
conforming reader of the wire format cannot decode any `(id, payload)`
pair from those bytes, so the round trip fails for this id.  (Any id
whose stripped big-endian form is not self-describing fails likewise.) -/
theorem c1_counterexample :
    writeTag newWriter (.FullTag 0 (.Binary [])) = (⟨[], [], [[128]], 1⟩, .ok) ∧
    decodeTagAs (.Binary []) [128] = none := by
  constructor
  · rfl
  · simp [decodeTagAs, readId, readVint, readBytes, idLenOfFirstByte, beToNat]

/-- C1 amended: for every `(id, payload)` pair in which `id` — and,
recursively, every id inside a container payload — is a valid
self-describing EBML element id, and whose scalar values fit their Rust
types, a successful `write(FullTag(id, payload))` on a fresh writer
delivers one byte sequence to the sink which a conforming reader decodes
back to exactly the same id and payload, recursively for containers. -/
theorem c1_round_trip (id : Nat) (data : TagData) (w' : TagWriter)
    (hvid : validTagId id = true) (hval : validIds data = true)
    (hwf : wfData data = true)
    (h : writeTag newWriter (.FullTag id data) = (w', .ok)) :
    ∃ enc, w'.sinkWrites = [enc] ∧ decodeTagAs data enc = some (id, data, []) := by
  simp only [writeTag] at h
  obtain ⟨enc, henc, hw⟩ := writeFullTag_ok_flush newWriter id data rfl w' h
  subst hw
  refine ⟨enc, by simp [newWriter], ?_⟩
  have hd := decodeTagAs_encodeTag id data enc hvid hval hwf henc []
  simpa using hd

theorem c1_round_trip_witness :
    ∃ enc, (⟨[], [], [[129, 129, 5]], 1⟩ : TagWriter).sinkWrites = [enc] ∧
      decodeTagAs (.Binary [5]) enc = some (129, .Binary [5], []) :=
  c1_round_trip 129 (.Binary [5]) ⟨[], [], [[129, 129, 5]], 1⟩
    (by decide) (by decide) (by decide) (by rfl)

/-- C2: the sequence `StartTag(A)`, `StartTag(B)`,
`FullTag(C, Binary [1,2,3])`, `EndTag(B)`, `EndTag(A)` on a fresh writer
succeeds and produces on the sink exactly
`A-header ++ B-header ++ C-header ++ [1,2,3]`, where C's header carries
size 3 (vint `0x83`), B's encoded size is the byte length of C's full
encoding, and A's encoded size is the byte length of B's full encoding;
the sink receives exactly one contiguous write and one flush, both issued
only during the `EndTag(A)` call. -/
theorem c2_nesting (A B C : Nat) (_hA : A < 2 ^ 64) (_hB : B < 2 ^ 64) (_hC : C < 2 ^ 64) :
    ∃ cEnc bEnc aEnc : List Nat,
      cEnc = strippedId C ++ [131] ++ [1, 2, 3] ∧
      bEnc = strippedId B ++ [128 + cEnc.length] ++ cEnc ∧
      aEnc = strippedId A ++ [128 + bEnc.length] ++ bEnc ∧
      (runWrites newWriter [.StartTag A, .StartTag B, .FullTag C (.Binary [1, 2, 3]),
          .EndTag B, .EndTag A]).2 = [.ok, .ok, .ok, .ok, .ok] ∧
      (runWrites newWriter [.StartTag A, .StartTag B, .FullTag C (.Binary [1, 2, 3]),
          .EndTag B]).1.sinkWrites = [] ∧
      (runWrites newWriter [.StartTag A, .StartTag B, .FullTag C (.Binary [1, 2, 3]),
          .EndTag B]).1.sinkFlushes = 0 ∧
      (runWrites newWriter [.StartTag A, .StartTag B, .FullTag C (.Binary [1, 2, 3]),
          .EndTag B, .EndTag A]).1.sinkWrites = [aEnc] ∧
      (runWrites newWriter [.StartTag A, .StartTag B, .FullTag C (.Binary [1, 2, 3]),
          .EndTag B, .EndTag A]).1.sinkFlushes = 1 := by
  have hlc : (strippedId C).length ≤ 8 := strippedId_length_le C
  have hlb : (strippedId B).length ≤ 8 := strippedId_length_le B
  set cE : List Nat := strippedId C ++ [131] ++ [1, 2, 3] with hcE
  set bE : List Nat := strippedId B ++ [128 + cE.length] ++ cE with hbE
  set aE : List Nat := strippedId A ++ [128 + bE.length] ++ bE with haE
  have hsv3 : asVint (3 : Nat) = some [131] := by
    rw [asVint_small 3 (by norm_num)]
  have hceq : cE.length = (strippedId C).length + 4 := by
    rw [hcE]
    simp only [List.length_append, List.length_cons, List.length_nil]
  have hclen : cE.length < 128 := by omega
  have hbeq : bE.length = (strippedId B).length + 1 + cE.length := by
    rw [hbE]
    simp only [List.length_append, List.length_cons, List.length_nil]
    try omega
  have hblen : bE.length < 128 := by omega
  have h1 : writeTag newWriter (.StartTag A) = (⟨[(A, 0)], [], [], 0⟩, .ok) := rfl
  have h2 : writeTag ⟨[(A, 0)], [], [], 0⟩ (.StartTag B) =
      (⟨[(B, 0), (A, 0)], [], [], 0⟩, .ok) := rfl
  have h3 : writeTag ⟨[(B, 0), (A, 0)], [], [], 0⟩ (.FullTag C (.Binary [1, 2, 3])) =
      (⟨[(B, 0), (A, 0)], cE, [], 0⟩, .ok) := by
    have hf := finalizeTag_append_nonempty ⟨[(B, 0), (A, 0)], [1, 2, 3], [], 0⟩ C
      [] [1, 2, 3] [131] rfl hsv3 (by simp)
    exact hf
  have h4 : writeTag ⟨[(B, 0), (A, 0)], cE, [], 0⟩ (.EndTag B) =
      (⟨[(A, 0)], bE, [], 0⟩, .ok) := by
    have he := endTag_match ⟨[(B, 0), (A, 0)], cE, [], 0⟩ B 0 [(A, 0)] rfl (by simp)
    have hf := finalizeTag_append_nonempty ⟨[(A, 0)], cE, [], 0⟩ B [] cE
      [128 + cE.length] rfl (asVint_small _ hclen) (by simp)
    calc writeTag ⟨[(B, 0), (A, 0)], cE, [], 0⟩ (.EndTag B)
        = finalizeTag ⟨[(A, 0)], cE, [], 0⟩ B (cE.length - 0) := he
      _ = finalizeTag ⟨[(A, 0)], cE, [], 0⟩ B cE.length := by rw [Nat.sub_zero]
      _ = (⟨[(A, 0)], bE, [], 0⟩, .ok) := hf
  have h5 : writeTag ⟨[(A, 0)], bE, [], 0⟩ (.EndTag A) = (⟨[], [], [aE], 1⟩, .ok) := by
    have he := endTag_match ⟨[(A, 0)], bE, [], 0⟩ A 0 [] rfl (by simp)
    have hf := finalizeTag_append_empty ⟨[], bE, [], 0⟩ A [] bE
      [128 + bE.length] rfl (asVint_small _ hblen) rfl
    calc writeTag ⟨[(A, 0)], bE, [], 0⟩ (.EndTag A)
        = finalizeTag ⟨[], bE, [], 0⟩ A (bE.length - 0) := he
      _ = finalizeTag ⟨[], bE, [], 0⟩ A bE.length := by rw [Nat.sub_zero]
      _ = (⟨[], [], [aE], 1⟩, .ok) := hf
  have hrun4 : runWrites newWriter [.StartTag A, .StartTag B,
      .FullTag C (.Binary [1, 2, 3]), .EndTag B] =
      (⟨[(A, 0)], bE, [], 0⟩, [.ok, .ok, .ok, .ok]) := by
    simp [runWrites, h1, h2, h3, h4]
  have hrun5 : runWrites newWriter [.StartTag A, .StartTag B,
      .FullTag C (.Binary [1, 2, 3]), .EndTag B, .EndTag A] =
      (⟨[], [], [aE], 1⟩, [.ok, .ok, .ok, .ok, .ok]) := by
    simp [runWrites, h1, h2, h3, h4, h5]
  exact ⟨cE, bE, aE, rfl, rfl, rfl, by rw [hrun5], by rw [hrun4], by rw [hrun4],
    by rw [hrun5], by rw [hrun5]⟩

theorem c2_nesting_witness :
    ∃ cEnc bEnc aEnc : List Nat,
      cEnc = strippedId 131 ++ [131] ++ [1, 2, 3] ∧
      bEnc = strippedId 130 ++ [128 + cEnc.length] ++ cEnc ∧
      aEnc = strippedId 129 ++ [128 + bEnc.length] ++ bEnc ∧
      (runWrites newWriter [.StartTag 129, .StartTag 130, .FullTag 131 (.Binary [1, 2, 3]),
          .EndTag 130, .EndTag 129]).2 = [.ok, .ok, .ok, .ok, .ok] ∧
      (runWrites newWriter [.StartTag 129, .StartTag 130, .FullTag 131 (.Binary [1, 2, 3]),
          .EndTag 130]).1.sinkWrites = [] ∧
      (runWrites newWriter [.StartTag 129, .StartTag 130, .FullTag 131 (.Binary [1, 2, 3]),
          .EndTag 130]).1.sinkFlushes = 0 ∧
      (runWrites newWriter [.StartTag 129, .StartTag 130, .FullTag 131 (.Binary [1, 2, 3]),
          .EndTag 130, .EndTag 129]).1.sinkWrites = [aEnc] ∧
      (runWrites newWriter [.StartTag 129, .StartTag 130, .FullTag 131 (.Binary [1, 2, 3]),
          .EndTag 130, .EndTag 129]).1.sinkFlushes = 1 :=
  c2_nesting 129 130 131 (by norm_num) (by norm_num) (by norm_num)
